import Mathlib

/-!
A shallow embedding of the workflow graph engine in
`api/core/workflow/graph_engine/entities/graph.py`, together with proofs
about its construction (`Graph.init`), frontier computation
(`next_node_ids`), mutation (`add_extra_edge`) and leaf detection
(`get_leaf_node_ids`).

Conventions of the embedding:
* Python `dict`s are association lists (`List (κ × α)`) with Python's
  insertion-order semantics: `dset` updates an existing key in place and
  appends a fresh key at the end; `List.lookup` is `dict.get`.
* Python string truthiness (`if not s`) is modelled by `truthyS`:
  a missing value and the empty string are falsy.
* The random uuid of a `GraphParallel` is modelled by a fresh counter
  (spec note: scope identifiers only need global uniqueness).
* The unbounded Python recursions are modelled with an explicit fuel
  parameter; `none` means the fuel ran out, so a computation that returns
  `none` for every fuel is one that never terminates in Python.
* Raised exceptions (`ValueError`, `KeyError`) are `Except.error`.
-/

/-- Association-list update with Python dict semantics: replace in place
if the key is present (keeping its position), else append at the end. -/
def dset {κ α : Type} [DecidableEq κ] : List (κ × α) → κ → α → List (κ × α)
  | [], k, v => [(k, v)]
  | (a, b) :: rest, k, v => if a = k then (a, v) :: rest else (a, b) :: dset rest k v

/-- `dict.get(k, dflt)`. -/
def dgetD {κ α : Type} [BEq κ] (d : List (κ × α)) (k : κ) (dflt : α) : α :=
  (List.lookup k d).getD dflt

/-- Python truthiness of an optional string: `None` and `""` are falsy. -/
def truthyS : Option String → Bool
  | none => false
  | some s => s != ""

/-- `run_condition.py`: condition attached to an edge (one kind is used:
`branch_identify` with the selector taken from the edge's source handle). -/
structure RunCondition where
  type : String
  branch_identify : Option String
  deriving DecidableEq, Repr

/-- `GraphEdge` of the source. -/
structure GraphEdge where
  source_node_id : String
  target_node_id : String
  run_condition : Option RunCondition
  deriving DecidableEq, Repr

/-- `GraphParallel` of the source; the random uuid id is modelled as a
fresh natural number. -/
structure GraphParallel where
  id : Nat
  parent_parallel_id : Option Nat
  deriving DecidableEq, Repr

/-- `GraphStateRoute` of the source. -/
structure GraphStateRoute where
  route_id : String
  node_id : String
  deriving DecidableEq, Repr

/-- The opaque external variable store (referenced, never read here). -/
structure VariablePool where
  deriving DecidableEq, Repr

/-- The opaque per-node run result (stored, never read here). -/
structure NodeRunResult where
  deriving DecidableEq, Repr

/-- `GraphState` of the source. -/
structure GraphState where
  routes : List (String × List GraphStateRoute)
  variable_pool : VariablePool
  node_route_results : List (String × NodeRunResult)
  deriving DecidableEq, Repr

/-- `NextGraphNode` of the source. -/
structure NextGraphNode where
  node_id : String
  parallel : Option GraphParallel
  deriving DecidableEq, Repr

/-- The `Graph` aggregate of the source. -/
structure Graph where
  root_node_id : String
  node_ids : List String
  edge_mapping : List (String × List GraphEdge)
  parallel_mapping : List (Nat × GraphParallel)
  node_parallel_mapping : List (String × Nat)
  run_state : GraphState
  deriving DecidableEq, Repr

abbrev EdgeMap := List (String × List GraphEdge)

/-- `edge_mapping.get(node_id, [])`. -/
def edgesOf (em : EdgeMap) (nodeId : String) : List GraphEdge :=
  dgetD em nodeId []

/-- One raw edge entry of the config (`{source, target, sourceHandle}`);
a missing key is `none`. -/
structure EdgeConfig where
  source : Option String
  target : Option String
  sourceHandle : Option String
  deriving DecidableEq, Repr

/-- One raw node entry of the config: its `id` and `data.type`
(`node_config.get('data', {}).get('type', '')`, so a missing type is `""`). -/
structure NodeConfig where
  id : Option String
  dataType : String
  deriving DecidableEq, Repr

/-- The raw graph config (`{nodes: [...], edges: [...]}`); a missing
`edges` key behaves as the empty list, exactly as in the source. -/
structure GraphConfig where
  nodes : List NodeConfig
  edges : List EdgeConfig
  deriving DecidableEq, Repr

/-- The run condition parsed from an edge config: a truthy `sourceHandle`
becomes a `branch_identify` condition (`Graph.init`, lines 114-120). -/
def mkRunCondition : Option String → Option RunCondition
  | none => none
  | some h => if h = "" then none else some ⟨"branch_identify", some h⟩

/-- One iteration of the edge-parsing loop of `Graph.init` (lines
100-128), threading the `edge_mapping` under construction and the list of
seen target ids (`target_edge_ids`; a Python set used only for
membership, so a list is a faithful model).  Note the in-place key
creation for a truthy source happens before the target check, exactly as
in the source. -/
def parseEdgeStep : EdgeMap × List String → EdgeConfig → EdgeMap × List String
  | (em, tids), ec =>
    match ec.source with
    | none => (em, tids)
    | some src =>
      if src = "" then (em, tids)
      else
        let em1 := if (List.lookup src em).isSome then em else dset em src []
        match ec.target with
        | none => (em1, tids)
        | some tgt =>
          if tgt = "" then (em1, tids)
          else
            let edge : GraphEdge := ⟨src, tgt, mkRunCondition ec.sourceHandle⟩
            (dset em1 src (dgetD em1 src [] ++ [edge]), tids ++ [tgt])

/-- The edge-parsing loop of `Graph.init` (lines 97-128). -/
def parseEdgeLoop : EdgeMap × List String → List EdgeConfig → EdgeMap × List String
  | acc, [] => acc
  | acc, ec :: rest => parseEdgeLoop (parseEdgeStep acc ec) rest

/-- The parsed `edge_mapping` of a config. -/
def parseEM (cfg : GraphConfig) : EdgeMap :=
  (parseEdgeLoop ([], []) cfg.edges).1

/-- The parsed `target_edge_ids` of a config. -/
def parseTargets (cfg : GraphConfig) : List String :=
  (parseEdgeLoop ([], []) cfg.edges).2

/-- Modelled from the spec: `NodeType.START.value`, the designated "start"
kind of `core.workflow.entities.node_entities` (not part of this file's
source). -/
def startNodeType : String := "start"

/-- `node_config.get('id')` of a node config whose id is known truthy. -/
def idOf (nc : NodeConfig) : String := nc.id.getD ""

/-- The root candidates (`root_node_configs`, lines 138-145): node configs
with a truthy id that never appears as an edge target. -/
def rootNodeConfigs (nodes : List NodeConfig) (tids : List String) : List NodeConfig :=
  nodes.filter (fun nc => truthyS nc.id && !(tids.contains (idOf nc)))

/-- Root resolution (lines 147-156).  When no truthy root id is supplied
the source assigns the whole START node *config* (not its id) to
`root_node_id` (`next((node_config for ...))`, line 152); the subsequent
membership test `root_node_id not in root_node_ids` compares that dict
against a list of strings, which is always false in Python.  The
intermediate value is therefore modelled as `String ⊕ NodeConfig`, and
only the `Sum.inl` (explicitly supplied) case can pass the check.
`none` means the `ValueError` of line 156 is raised. -/
def resolvedRootValue (nodes : List NodeConfig) (tids : List String)
    (rootNodeId : Option String) : Option (String ⊕ NodeConfig) :=
  if truthyS rootNodeId then some (Sum.inl (rootNodeId.getD ""))
  else
    match (rootNodeConfigs nodes tids).find? (fun nc => nc.dataType == startNodeType) with
    | some nc => some (Sum.inr nc)
    | none => none

/-- The membership check of line 155 applied to the resolved value. -/
def resolveRoot (nodes : List NodeConfig) (tids : List String)
    (rootNodeId : Option String) : Option String :=
  match resolvedRootValue nodes tids rootNodeId with
  | some (Sum.inl r) =>
    if ((rootNodeConfigs nodes tids).map idOf).contains r then some r else none
  | _ => none

/-- The common recursion scheme of `_recursively_add_node_ids`,
`_recursively_fetch_routes` and `_recursively_add_parallel_node_ids`:
walk the out-edges of `node`, appending each target that is neither
stopped (`stop`) nor already collected, and recursing into it.  The three
source functions differ only in the `stop` predicate (constantly false for
the first two, `== merge_node_id` for the third) and in the initial
accumulator.  `goWalk` is the loop over one edge list, taking the
recursive call for the next depth as a parameter. -/
def goWalk (stop : String → Bool)
    (walkRec : List String → String → Option (List String)) :
    List String → List GraphEdge → Option (List String)
  | acc, [] => some acc
  | acc, e :: rest =>
    if stop e.target_node_id ∨ e.target_node_id ∈ acc then
      goWalk stop walkRec acc rest
    else
      match walkRec (acc ++ [e.target_node_id]) e.target_node_id with
      | none => none
      | some acc1 => goWalk stop walkRec acc1 rest

/-- The fueled guarded walk; `none` means the fuel ran out. -/
def walkF (em : EdgeMap) (stop : String → Bool) :
    Nat → List String → String → Option (List String)
  | 0, _, _ => none
  | f + 1, acc, node => goWalk stop (walkF em stop f) acc (edgesOf em node)

/-- `_recursively_add_node_ids` (lines 190-211), fueled. -/
def recursivelyAddNodeIds (em : EdgeMap) (f : Nat) (nodeIds : List String)
    (nodeId : String) : Option (List String) :=
  walkF em (fun _ => false) f nodeIds nodeId

/-- `_recursively_fetch_routes` (lines 436-456), fueled. -/
def recursivelyFetchRoutes (em : EdgeMap) (f : Nat) (routesNodeIds : List String)
    (nodeId : String) : Option (List String) :=
  walkF em (fun _ => false) f routesNodeIds nodeId

/-- `_recursively_add_parallel_node_ids` (lines 343-366), fueled: the walk
that stops expanding at the designated merge node. -/
def recursivelyAddParallelNodeIds (em : EdgeMap) (mergeNodeId : String) (f : Nat)
    (branchNodeIds : List String) (nodeId : String) : Option (List String) :=
  walkF em (fun t => t == mergeNodeId) f branchNodeIds nodeId

/-- The `routes_node_ids` loop of `_fetch_all_node_ids_in_parallels`
(lines 375-384): for each branch root, the forward closure fetched by
`_recursively_fetch_routes` starting from an empty list. -/
def routesLoopF (em : EdgeMap) (f : Nat) :
    List (String × List String) → List String → Option (List (String × List String))
  | acc, [] => some acc
  | acc, p :: rest =>
    match recursivelyFetchRoutes em f [] p with
    | none => none
    | some lst => routesLoopF em f (dset acc p lst) rest

/-- The `merge_branch_node_ids` accumulation (lines 387-402; the
`leaf_node_ids` computed alongside it is never read afterwards and is
omitted): for every node of every branch closure, append every *other*
branch whose closure also contains it. -/
def buildMbni (routes : List (String × List String)) : List (String × List String) :=
  routes.foldl
    (fun mbni p =>
      p.2.foldl
        (fun mbni node =>
          routes.foldl
            (fun mbni q =>
              if p.1 ≠ q.1 ∧ node ∈ q.2 then
                dset mbni node (dgetD mbni node [] ++ [q.1])
              else mbni)
            mbni)
        mbni)
    []

/-- Stable insertion of an entry into a list kept in descending order of
`·.2.length`, inserted after all entries of greater or equal length. -/
def insDesc (x : String × List String) :
    List (String × List String) → List (String × List String)
  | [] => [x]
  | y :: ys => if x.2.length ≤ y.2.length then y :: insDesc x ys else x :: y :: ys

/-- `dict(sorted(mbni.items(), key=lambda x: len(x[1]), reverse=True))`
(line 405): Python's `sorted` is a stable descending sort by list length,
which iterated stable insertion reproduces exactly. -/
def stableSortDesc (l : List (String × List String)) : List (String × List String) :=
  l.foldl (fun acc x => insDesc x acc) []

/-- The `branches_merge_node_ids` pass (lines 407-416): walk the sorted
merge candidates and greedily claim at most one merge node per branch. -/
def buildBranchesMerge (mbni : List (String × List String)) : List (String × String) :=
  mbni.foldl
    (fun bm p =>
      if p.2.length ≤ 1 then bm
      else
        p.2.foldl
          (fun bm b => if (List.lookup b bm).isSome then bm else dset bm b p.1)
          bm)
    []

/-- The `in_branch_node_ids` loop (lines 418-432): a branch with no
designated merge node owns its whole closure; otherwise the bounded walk
collects the nodes strictly before the merge node. -/
def inBranchLoopF (em : EdgeMap) (f : Nat) (bm : List (String × String)) :
    List (String × List String) → List (String × List String) →
    Option (List (String × List String))
  | acc, [] => some acc
  | acc, p :: rest =>
    match List.lookup p.1 bm with
    | none => inBranchLoopF em f bm (dset acc p.1 (p.1 :: p.2)) rest
    | some mergeId =>
      match recursivelyAddParallelNodeIds em mergeId f [p.1] p.1 with
      | none => none
      | some lst => inBranchLoopF em f bm (dset acc p.1 lst) rest

/-- `_fetch_all_node_ids_in_parallels` (lines 368-434), fueled. -/
def fetchAllNodeIdsInParallels (em : EdgeMap) (f : Nat) (parallelNodeIds : List String) :
    Option (List (String × List String)) :=
  match routesLoopF em f [] parallelNodeIds with
  | none => none
  | some routes =>
    let mbni := stableSortDesc (buildMbni routes)
    let bm := buildBranchesMerge mbni
    inBranchLoopF em f bm [] routes

/-- The conditioned branch targets at a fan-out node (lines 315-316). -/
def condTargets (edges : List GraphEdge) : List String :=
  (edges.filter (fun e => e.run_condition.isSome)).map (·.target_node_id)

/-- The parent choice of a new parallel scope (lines 321-323): the scope
of the *first* branch target whenever every branch target already has an
entry in `node_parallel_mapping`, else no parent.  The source never checks
that the targets map to the *same* scope. -/
def parentChoice (npm : List (String × Nat)) (pnids : List String) : Option Nat :=
  if pnids.all (fun n => (List.lookup n npm).isSome) then List.lookup (pnids.headD "") npm
  else none

/-- The mutable state of `_recursively_add_parallels`: the two mappings
plus the fresh-id counter standing in for uuid generation. -/
structure PState where
  pm : List (Nat × GraphParallel)
  npm : List (String × Nat)
  ctr : Nat
  deriving DecidableEq, Repr

/-- The fan-out handling at one node (lines 312-333): when the node has
more than one out-edge and at least one conditioned target, create a new
scope, and record it for every *key* of the dict returned by
`_fetch_all_node_ids_in_parallels` — the dict comprehension of line 333
iterates the dict, i.e. only the branch roots, not the computed branch
member lists. -/
def applyFanOutF (em : EdgeMap) (f : Nat) (st : PState) (node : String) : Option PState :=
  let edges := edgesOf em node
  if edges.length > 1 then
    let pnids := condTargets edges
    if pnids = [] then some st
    else
      let par : GraphParallel := ⟨st.ctr, parentChoice st.npm pnids⟩
      match fetchAllNodeIdsInParallels em f pnids with
      | none => none
      | some inBranch =>
        some ⟨dset st.pm par.id par,
              (inBranch.map Prod.fst).foldl (fun d k => dset d k par.id) st.npm,
              st.ctr + 1⟩
  else some st

/-- The recursion of `_recursively_add_parallels` into every out-edge
(lines 335-341); the recursive call for the next depth is a parameter. -/
def goParallels (recP : PState → String → Option PState) :
    PState → List GraphEdge → Option PState
  | st, [] => some st
  | st, e :: rest =>
    match recP st e.target_node_id with
    | none => none
    | some st1 => goParallels recP st1 rest

/-- `_recursively_add_parallels` (lines 298-341), fueled.  Note: unlike
the guarded walks, this recursion has no visited set. -/
def recursivelyAddParallels (em : EdgeMap) : Nat → PState → String → Option PState
  | 0, _, _ => none
  | f + 1, st, node =>
    match applyFanOutF em f st node with
    | none => none
    | some st1 => goParallels (recursivelyAddParallels em f) st1 (edgesOf em node)

/-- `Graph.init` (lines 77-188), fueled.  `none` means a recursion never
returned; `some (Except.error _)` models a raised `ValueError`. -/
def graphInit (cfg : GraphConfig) (vp : VariablePool) (rootNodeId : Option String)
    (f : Nat) : Option (Except String Graph) :=
  if cfg.nodes = [] then some (Except.error "Graph must have at least one node")
  else
    match resolveRoot cfg.nodes (parseTargets cfg) rootNodeId with
    | none => some (Except.error "Root node id not found in the graph")
    | some root =>
      match recursivelyAddNodeIds (parseEM cfg) f [root] root with
      | none => none
      | some nodeIds =>
        match recursivelyAddParallels (parseEM cfg) f ⟨[], [], 0⟩ root with
        | none => none
        | some st =>
          some (Except.ok ⟨root, nodeIds, parseEM cfg, st.pm, st.npm, ⟨[], vp, []⟩⟩)

/-- The inner loop of `next_node_ids` building the output list (lines
231-253), threading the external condition predicate.  A missing
`parallel_mapping` entry is the `KeyError` of line 249. -/
def buildNextFrom (g : Graph) (cc : RunCondition → String → String → Graph → Bool) :
    List GraphEdge → Except String (List NextGraphNode)
  | [] => Except.ok []
  | e :: rest =>
    let keep :=
      match e.run_condition with
      | some rcond => cc rcond e.source_node_id e.target_node_id g
      | none => true
    if keep then
      match List.lookup e.target_node_id g.node_parallel_mapping with
      | none => (buildNextFrom g cc rest).map (fun l => ⟨e.target_node_id, none⟩ :: l)
      | some pid =>
        match List.lookup pid g.parallel_mapping with
        | none => Except.error "KeyError"
        | some par => (buildNextFrom g cc rest).map (fun l => ⟨e.target_node_id, some par⟩ :: l)
    else buildNextFrom g cc rest

/-- The `route_final_graph_edges` collection of `next_node_ids` (lines
221-229): for every recorded route step under the root key, its out-edges
whose target has not yet begun generating routes (target not a key of
`routes`).  `if not graph_edges: continue` skips both a missing entry and
an empty one. -/
def routeFinalEdges (em : EdgeMap) (routes : List (String × List GraphStateRoute))
    (routeList : List GraphStateRoute) : List GraphEdge :=
  routeList.foldl
    (fun acc route =>
      match List.lookup route.node_id em with
      | none => acc
      | some ges =>
        if ges = [] then acc
        else acc ++ ges.filter (fun e => (List.lookup e.target_node_id routes).isNone))
    []

/-- `next_node_ids` (lines 213-253).  The external
`ConditionManager...check` call is the parameter `cc`.  The unguarded
subscript `self.run_state.routes[self.root_node_id]` of line 222 is the
`KeyError` case. -/
def nextNodeIds (g : Graph) (cc : RunCondition → String → String → Graph → Bool) :
    Except String (List NextGraphNode) :=
  if g.run_state.routes = [] then Except.ok [⟨g.root_node_id, none⟩]
  else
    match List.lookup g.root_node_id g.run_state.routes with
    | none => Except.error "KeyError"
    | some routeList =>
      buildNextFrom g cc (routeFinalEdges g.edge_mapping g.run_state.routes routeList)

/-- `add_extra_edge` (lines 255-280).  The source mutates the graph in
place and never raises; the embedding returns the updated graph. -/
def addExtraEdge (g : Graph) (sourceNodeId targetNodeId : String)
    (rc : Option RunCondition) : Graph :=
  if sourceNodeId ∈ g.node_ids ∧ targetNodeId ∈ g.node_ids then
    let em1 :=
      if (List.lookup sourceNodeId g.edge_mapping).isSome then g.edge_mapping
      else dset g.edge_mapping sourceNodeId []
    if targetNodeId ∈ (dgetD em1 sourceNodeId []).map GraphEdge.target_node_id then
      { g with edge_mapping := em1 }
    else
      let newEdges := dgetD em1 sourceNodeId [] ++ [⟨sourceNodeId, targetNodeId, rc⟩]
      { g with edge_mapping := dset em1 sourceNodeId newEdges }
  else g

/-- The loop of `get_leaf_node_ids` (lines 282-296). -/
def leafLoop (g : Graph) : List String → List String
  | [] => []
  | n :: rest =>
    match List.lookup n g.edge_mapping with
    | none => n :: leafLoop g rest
    | some es =>
      if es.length = 1 ∧ (es.headD ⟨"", "", none⟩).target_node_id = g.root_node_id then
        n :: leafLoop g rest
      else leafLoop g rest

/-- `get_leaf_node_ids` (lines 282-296). -/
def getLeafNodeIds (g : Graph) : List String :=
  leafLoop g g.node_ids

/-- An edge of the mapping from `s` to `t`. -/
def EdgeIn (em : EdgeMap) (s t : String) : Prop :=
  ∃ e ∈ edgesOf em s, e.target_node_id = t

instance (em : EdgeMap) (s t : String) : Decidable (EdgeIn em s t) := by
  unfold EdgeIn; infer_instance

/-- Forward reachability over the edge mapping. -/
inductive ReachF (em : EdgeMap) (root : String) : String → Prop
  | refl : ReachF em root root
  | step {s t : String} : ReachF em root s → EdgeIn em s t → ReachF em root t

/-- All edge targets occurring anywhere in the mapping, deduplicated. -/
def emTargets (em : EdgeMap) : List String :=
  (em.foldr (fun p acc => p.2.map GraphEdge.target_node_id ++ acc) []).dedup

/-- The number of targets a guarded walk could still append. -/
def missingT (em : EdgeMap) (acc : List String) : Nat :=
  ((emTargets em).filter (fun x => decide (x ∉ acc))).length

/-! ### Association-list lemmas -/

theorem lookup_dset_self {κ α : Type} [DecidableEq κ] (d : List (κ × α)) (k : κ) (v : α) :
    List.lookup k (dset d k v) = some v := by
  induction d with
  | nil => simp [dset, List.lookup]
  | cons p rest ih =>
    obtain ⟨a, b⟩ := p
    by_cases h : a = k
    · subst h; simp [dset, List.lookup]
    · have hba : (k == a) = false := by
        simp [beq_eq_false_iff_ne]; exact fun hk => h hk.symm
      simp [dset, h, List.lookup, hba, ih]

theorem lookup_dset_ne {κ α : Type} [DecidableEq κ] (d : List (κ × α)) (k k' : κ) (v : α)
    (hne : k' ≠ k) : List.lookup k' (dset d k v) = List.lookup k' d := by
  induction d with
  | nil =>
    have : (k' == k) = false := by simp [beq_eq_false_iff_ne, hne]
    simp [dset, List.lookup, this]
  | cons p rest ih =>
    obtain ⟨a, b⟩ := p
    by_cases h : a = k
    · subst h
      have : (k' == a) = false := by simp [beq_eq_false_iff_ne, hne]
      simp [dset, List.lookup, this]
    · by_cases h2 : k' = a
      · subst h2; simp [dset, h, List.lookup]
      · have : (k' == a) = false := by simp [beq_eq_false_iff_ne, h2]
        simp [dset, h, List.lookup, this, ih]

theorem lookup_mem {κ α : Type} [BEq κ] [LawfulBEq κ] (d : List (κ × α)) (k : κ) (v : α)
    (h : List.lookup k d = some v) : (k, v) ∈ d := by
  induction d with
  | nil => simp [List.lookup] at h
  | cons p rest ih =>
    obtain ⟨a, b⟩ := p
    by_cases hk : k = a
    · subst hk
      simp [List.lookup] at h
      subst h; exact List.mem_cons_self _ _
    · have : (k == a) = false := by simp [beq_eq_false_iff_ne, hk]
      simp [List.lookup, this] at h
      exact List.mem_cons_of_mem _ (ih h)

theorem mem_dset {κ α : Type} [DecidableEq κ] (d : List (κ × α)) (k : κ) (v : α)
    (x : κ × α) (h : x ∈ dset d k v) : x ∈ d ∨ x.1 = k := by
  induction d with
  | nil => simp [dset] at h; subst h; right; rfl
  | cons p rest ih =>
    obtain ⟨a, b⟩ := p
    by_cases ha : a = k
    · subst ha
      simp [dset] at h
      rcases h with h | h
      · subst h; right; rfl
      · left; exact List.mem_cons_of_mem _ h
    · simp [dset, ha] at h
      rcases h with h | h
      · subst h; left; exact List.mem_cons_self _ _
      · rcases ih h with h2 | h2
        · left; exact List.mem_cons_of_mem _ h2
        · right; exact h2

/-! ### Targets and the fuel measure of the guarded walks -/

theorem mem_emTargets_of_mem (em : EdgeMap) (p : String × List GraphEdge) (e : GraphEdge)
    (hp : p ∈ em) (he : e ∈ p.2) : e.target_node_id ∈ emTargets em := by
  unfold emTargets
  rw [List.mem_dedup]
  induction em with
  | nil => simp at hp
  | cons q rest ih =>
    simp only [List.foldr_cons, List.mem_append]
    rcases List.mem_cons.mp hp with h | h
    · subst h; left; exact List.mem_map_of_mem _ he
    · right; exact ih h

theorem mem_emTargets_of_edgesOf (em : EdgeMap) (n : String) (e : GraphEdge)
    (he : e ∈ edgesOf em n) : e.target_node_id ∈ emTargets em := by
  unfold edgesOf dgetD at he
  cases h : List.lookup n em with
  | none => rw [h] at he; simp at he
  | some l =>
    rw [h] at he; simp at he
    exact mem_emTargets_of_mem em (n, l) e (lookup_mem _ _ _ h) he

theorem length_filter_le_of_imp {α : Type} (l : List α) (p q : α → Bool)
    (h : ∀ x ∈ l, p x = true → q x = true) :
    (l.filter p).length ≤ (l.filter q).length := by
  induction l with
  | nil => simp
  | cons a rest ih =>
    have ih2 := ih (fun x hx => h x (List.mem_cons_of_mem _ hx))
    by_cases hp : p a = true
    · have hq := h a (List.mem_cons_self _ _) hp
      simp [List.filter_cons, hp, hq]; exact ih2
    · simp only [List.filter_cons]
      rw [Bool.not_eq_true] at hp
      rw [hp]
      by_cases hq : q a = true
      · simp [hq]; omega
      · rw [Bool.not_eq_true] at hq; rw [hq]; exact ih2

theorem length_filter_lt_of_imp {α : Type} (l : List α) (p q : α → Bool) (t : α)
    (h : ∀ x ∈ l, p x = true → q x = true) (ht : t ∈ l) (hqt : q t = true)
    (hpt : p t = false) :
    (l.filter p).length < (l.filter q).length := by
  induction l with
  | nil => simp at ht
  | cons a rest ih =>
    have hrest : ∀ x ∈ rest, p x = true → q x = true :=
      fun x hx => h x (List.mem_cons_of_mem _ hx)
    rcases List.mem_cons.mp ht with h1 | h1
    · subst h1
      simp only [List.filter_cons, hpt, hqt]
      have := length_filter_le_of_imp rest p q hrest
      simp; omega
    · by_cases hp : p a = true
      · have hq := h a (List.mem_cons_self _ _) hp
        simp [List.filter_cons, hp, hq]
        exact ih hrest h1
      · rw [Bool.not_eq_true] at hp
        simp only [List.filter_cons, hp]
        have hlt := ih hrest h1
        by_cases hq : q a = true
        · simp [hq]; omega
        · rw [Bool.not_eq_true] at hq; rw [hq]; exact hlt

theorem missingT_le_of_subset (em : EdgeMap) (acc acc' : List String)
    (h : acc ⊆ acc') : missingT em acc' ≤ missingT em acc := by
  unfold missingT
  apply length_filter_le_of_imp
  intro x _ hx
  simp only [decide_eq_true_eq] at hx ⊢
  exact fun hmem => hx (h hmem)

theorem missingT_append_lt (em : EdgeMap) (acc : List String) (t : String)
    (ht : t ∈ emTargets em) (hna : t ∉ acc) :
    missingT em (acc ++ [t]) < missingT em acc := by
  unfold missingT
  apply length_filter_lt_of_imp _ _ _ t
  · intro x _ hx
    simp only [decide_eq_true_eq, List.mem_append] at hx ⊢
    exact fun hmem => hx (Or.inl hmem)
  · exact ht
  · simp [hna]
  · simp

/-! ### Generic lemmas about the guarded walk -/

theorem reachF_trans {em : EdgeMap} {root b c : String}
    (h1 : ReachF em root b) (h2 : ReachF em b c) : ReachF em root c := by
  induction h2 with
  | refl => exact h1
  | step _ he ih => exact ReachF.step ih he

theorem edgeIn_of_edgesOf {em : EdgeMap} {n : String} {e : GraphEdge}
    (he : e ∈ edgesOf em n) : EdgeIn em n e.target_node_id :=
  ⟨e, he, rfl⟩

/-- Every out-edge of `x` is either stopped or already collected in `res`. -/
def ClosedAt (em : EdgeMap) (stop : String → Bool) (res : List String) (x : String) : Prop :=
  ∀ e ∈ edgesOf em x, stop e.target_node_id = true ∨ e.target_node_id ∈ res

theorem closedAt_mono {em : EdgeMap} {stop : String → Bool} {res res' : List String}
    {x : String} (hsub : res ⊆ res') (h : ClosedAt em stop res x) :
    ClosedAt em stop res' x := by
  intro e he
  rcases h e he with h1 | h1
  · exact Or.inl h1
  · exact Or.inr (hsub h1)

theorem goWalk_sub (stop : String → Bool) (wr : List String → String → Option (List String))
    (hwr : ∀ acc node res, wr acc node = some res → acc ⊆ res) :
    ∀ (l : List GraphEdge) (acc res : List String),
      goWalk stop wr acc l = some res → acc ⊆ res := by
  intro l
  induction l with
  | nil =>
    intro acc res h
    simp only [goWalk, Option.some.injEq] at h
    subst h
    exact fun _ hx => hx
  | cons e rest ih =>
    intro acc res h
    simp only [goWalk] at h
    by_cases hg : stop e.target_node_id = true ∨ e.target_node_id ∈ acc
    · rw [if_pos hg] at h
      exact ih acc res h
    · rw [if_neg hg] at h
      cases hw : wr (acc ++ [e.target_node_id]) e.target_node_id with
      | none => rw [hw] at h; simp at h
      | some acc1 =>
        rw [hw] at h
        exact fun x hx => ih acc1 res h (hwr _ _ _ hw (List.mem_append_left _ hx))

theorem walkF_sub (em : EdgeMap) (stop : String → Bool) :
    ∀ (f : Nat) (acc : List String) (node : String) (res : List String),
      walkF em stop f acc node = some res → acc ⊆ res := by
  intro f
  induction f with
  | zero => intro acc node res h; simp [walkF] at h
  | succ f ih =>
    intro acc node res h
    simp only [walkF] at h
    exact goWalk_sub stop _ (fun a n r hh => ih a n r hh) _ _ _ h

theorem goWalk_sound (em : EdgeMap) (stop : String → Bool) (node : String)
    (wr : List String → String → Option (List String))
    (hwr : ∀ acc n res, wr acc n = some res → ∀ x ∈ res, x ∈ acc ∨ ReachF em n x) :
    ∀ l, (∀ e ∈ l, EdgeIn em node e.target_node_id) →
      ∀ acc res, goWalk stop wr acc l = some res →
        ∀ x ∈ res, x ∈ acc ∨ ReachF em node x := by
  intro l
  induction l with
  | nil =>
    intro _ acc res h
    simp only [goWalk, Option.some.injEq] at h
    subst h
    exact fun x hx => Or.inl hx
  | cons e rest ih =>
    intro hl acc res h
    have hlrest : ∀ e ∈ rest, EdgeIn em node e.target_node_id :=
      fun e he => hl e (List.mem_cons_of_mem _ he)
    have hedge : EdgeIn em node e.target_node_id := hl e (List.mem_cons_self _ _)
    simp only [goWalk] at h
    by_cases hg : stop e.target_node_id = true ∨ e.target_node_id ∈ acc
    · rw [if_pos hg] at h
      exact ih hlrest acc res h
    · rw [if_neg hg] at h
      cases hw : wr (acc ++ [e.target_node_id]) e.target_node_id with
      | none => rw [hw] at h; simp at h
      | some acc1 =>
        rw [hw] at h
        intro x hx
        rcases ih hlrest acc1 res h x hx with h1 | h1
        · rcases hwr _ _ _ hw x h1 with h2 | h2
          · rcases List.mem_append.mp h2 with h3 | h3
            · exact Or.inl h3
            · have : x = e.target_node_id := by simpa using h3
              subst this
              exact Or.inr (ReachF.step ReachF.refl hedge)
          · exact Or.inr (reachF_trans (ReachF.step ReachF.refl hedge) h2)
        · exact Or.inr h1

theorem walkF_sound (em : EdgeMap) (stop : String → Bool) :
    ∀ (f : Nat) (acc : List String) (node : String) (res : List String),
      walkF em stop f acc node = some res → ∀ x ∈ res, x ∈ acc ∨ ReachF em node x := by
  intro f
  induction f with
  | zero => intro acc node res h; simp [walkF] at h
  | succ f ih =>
    intro acc node res h
    simp only [walkF] at h
    exact goWalk_sound em stop node _ (fun a n r hh => ih a n r hh)
      (edgesOf em node) (fun e he => edgeIn_of_edgesOf he) acc res h

theorem goWalk_complete (em : EdgeMap) (stop : String → Bool)
    (wr : List String → String → Option (List String))
    (hsub : ∀ acc n res, wr acc n = some res → acc ⊆ res)
    (hwr : ∀ acc n res, wr acc n = some res →
      ClosedAt em stop res n ∧ ∀ x ∈ res, x ∈ acc ∨ ClosedAt em stop res x) :
    ∀ l acc res, goWalk stop wr acc l = some res →
      (∀ e ∈ l, stop e.target_node_id = true ∨ e.target_node_id ∈ res) ∧
      (∀ x ∈ res, x ∈ acc ∨ ClosedAt em stop res x) := by
  intro l
  induction l with
  | nil =>
    intro acc res h
    simp only [goWalk, Option.some.injEq] at h
    subst h
    exact ⟨fun e he => absurd he (List.not_mem_nil e), fun x hx => Or.inl hx⟩
  | cons e rest ih =>
    intro acc res h
    simp only [goWalk] at h
    by_cases hg : stop e.target_node_id = true ∨ e.target_node_id ∈ acc
    · rw [if_pos hg] at h
      have hacc : acc ⊆ res := goWalk_sub stop wr hsub rest acc res h
      have := ih acc res h
      refine ⟨fun e' he' => ?_, this.2⟩
      rcases List.mem_cons.mp he' with h1 | h1
      · subst h1
        rcases hg with h2 | h2
        · exact Or.inl h2
        · exact Or.inr (hacc h2)
      · exact this.1 e' h1
    · rw [if_neg hg] at h
      cases hw : wr (acc ++ [e.target_node_id]) e.target_node_id with
      | none => rw [hw] at h; simp at h
      | some acc1 =>
        rw [hw] at h
        have hacc1 : acc1 ⊆ res := goWalk_sub stop wr hsub rest acc1 res h
        have hwr1 := hwr _ _ _ hw
        have ihres := ih acc1 res h
        refine ⟨fun e' he' => ?_, fun x hx => ?_⟩
        · rcases List.mem_cons.mp he' with h1 | h1
          · subst h1
            exact Or.inr (hacc1 (hsub _ _ _ hw (List.mem_append_right _ (by simp))))
          · exact ihres.1 e' h1
        · rcases ihres.2 x hx with h1 | h1
          · rcases hwr1.2 x h1 with h2 | h2
            · rcases List.mem_append.mp h2 with h3 | h3
              · exact Or.inl h3
              · have : x = e.target_node_id := by simpa using h3
                subst this
                exact Or.inr (closedAt_mono hacc1 hwr1.1)
            · exact Or.inr (closedAt_mono hacc1 h2)
          · exact Or.inr h1

theorem walkF_complete (em : EdgeMap) (stop : String → Bool) :
    ∀ (f : Nat) (acc : List String) (node : String) (res : List String),
      walkF em stop f acc node = some res →
      ClosedAt em stop res node ∧ ∀ x ∈ res, x ∈ acc ∨ ClosedAt em stop res x := by
  intro f
  induction f with
  | zero => intro acc node res h; simp [walkF] at h
  | succ f ih =>
    intro acc node res h
    simp only [walkF] at h
    have := goWalk_complete em stop _ (fun a n r hh => walkF_sub em stop f a n r hh)
      (fun a n r hh => ih a n r hh) (edgesOf em node) acc res h
    exact ⟨fun e he => this.1 e he, this.2⟩

theorem goWalk_nodup (stop : String → Bool)
    (wr : List String → String → Option (List String))
    (hwr : ∀ acc n res, wr acc n = some res → acc.Nodup → res.Nodup) :
    ∀ l acc res, goWalk stop wr acc l = some res → acc.Nodup → res.Nodup := by
  intro l
  induction l with
  | nil =>
    intro acc res h hacc
    simp only [goWalk, Option.some.injEq] at h
    subst h; exact hacc
  | cons e rest ih =>
    intro acc res h hacc
    simp only [goWalk] at h
    by_cases hg : stop e.target_node_id = true ∨ e.target_node_id ∈ acc
    · rw [if_pos hg] at h
      exact ih acc res h hacc
    · rw [if_neg hg] at h
      push_neg at hg
      cases hw : wr (acc ++ [e.target_node_id]) e.target_node_id with
      | none => rw [hw] at h; simp at h
      | some acc1 =>
        rw [hw] at h
        have happ : (acc ++ [e.target_node_id]).Nodup := by
          rw [List.nodup_append]
          exact ⟨hacc, List.nodup_singleton _, by
            intro x hx hx2
            simp at hx2
            subst hx2
            exact hg.2 hx⟩
        exact ih acc1 res h (hwr _ _ _ hw happ)

theorem walkF_nodup (em : EdgeMap) (stop : String → Bool) :
    ∀ (f : Nat) (acc : List String) (node : String) (res : List String),
      walkF em stop f acc node = some res → acc.Nodup → res.Nodup := by
  intro f
  induction f with
  | zero => intro acc node res h; simp [walkF] at h
  | succ f ih =>
    intro acc node res h
    simp only [walkF] at h
    exact goWalk_nodup stop _ (fun a n r hh => ih a n r hh) _ acc res h

theorem goWalk_suff (em : EdgeMap) (stop : String → Bool) (f : Nat)
    (wr : List String → String → Option (List String))
    (hsub : ∀ acc n res, wr acc n = some res → acc ⊆ res)
    (hsuf : ∀ acc n, missingT em acc < f → ∃ res, wr acc n = some res) :
    ∀ l, (∀ e ∈ l, e.target_node_id ∈ emTargets em) →
      ∀ acc, missingT em acc ≤ f → ∃ res, goWalk stop wr acc l = some res := by
  intro l
  induction l with
  | nil => intro _ acc _; exact ⟨acc, rfl⟩
  | cons e rest ih =>
    intro hl acc hm
    have hlrest : ∀ e ∈ rest, e.target_node_id ∈ emTargets em :=
      fun e he => hl e (List.mem_cons_of_mem _ he)
    simp only [goWalk]
    by_cases hg : stop e.target_node_id = true ∨ e.target_node_id ∈ acc
    · rw [if_pos hg]
      exact ih hlrest acc hm
    · rw [if_neg hg]
      push_neg at hg
      have htm : e.target_node_id ∈ emTargets em := hl e (List.mem_cons_self _ _)
      have hlt : missingT em (acc ++ [e.target_node_id]) < missingT em acc :=
        missingT_append_lt em acc _ htm hg.2
      obtain ⟨acc1, hw⟩ := hsuf (acc ++ [e.target_node_id]) e.target_node_id (by omega)
      rw [hw]
      have hsubs : acc ++ [e.target_node_id] ⊆ acc1 := hsub _ _ _ hw
      have hm1 : missingT em acc1 ≤ f := by
        have := missingT_le_of_subset em _ _ hsubs
        omega
      exact ih hlrest acc1 hm1

theorem walkF_suff (em : EdgeMap) (stop : String → Bool) :
    ∀ (f : Nat) (acc : List String) (node : String), missingT em acc < f →
      ∃ res, walkF em stop f acc node = some res := by
  intro f
  induction f with
  | zero => intro acc node h; omega
  | succ f ih =>
    intro acc node h
    simp only [walkF]
    exact goWalk_suff em stop f _ (fun a n r hh => walkF_sub em stop f a n r hh)
      (fun a n hm => ih a n hm) (edgesOf em node)
      (fun e he => mem_emTargets_of_edgesOf em node e he) acc (by omega)


/-! ### Characterization of the edge-parsing loop -/

/-- Whether an edge config carries the (truthy) source id `s`. -/
def srcIs (s : String) (ec : EdgeConfig) : Bool :=
  (ec.source == some s) && (s != "")

/-- The parsed edge of a fully well-formed edge config. -/
def mkGraphEdge (ec : EdgeConfig) : GraphEdge :=
  ⟨ec.source.getD "", ec.target.getD "", mkRunCondition ec.sourceHandle⟩

/-- The edges the parse loop appends under key `s`: the configs with
truthy source `s` and a truthy target, in order. -/
def edgesFrom (s : String) (ecs : List EdgeConfig) : List GraphEdge :=
  (ecs.filter (fun ec => srcIs s ec && truthyS ec.target)).map mkGraphEdge

theorem srcIs_true_elim {s : String} {ec : EdgeConfig} (h : srcIs s ec = true) :
    ec.source = some s ∧ s ≠ "" := by
  simp [srcIs] at h
  exact ⟨h.1, h.2⟩

theorem parseEdgeStep_lookup_full (em : EdgeMap) (tids : List String) (ec : EdgeConfig)
    (s : String) (h1 : srcIs s ec = true) (h2 : truthyS ec.target = true) :
    List.lookup s (parseEdgeStep (em, tids) ec).1 =
      some ((List.lookup s em).getD [] ++ [mkGraphEdge ec]) := by
  obtain ⟨hsrc, hne⟩ := srcIs_true_elim h1
  obtain ⟨tgt, htg, htne⟩ : ∃ tgt, ec.target = some tgt ∧ tgt ≠ "" := by
    cases h : ec.target with
    | none => rw [h] at h2; simp [truthyS] at h2
    | some t => rw [h] at h2; simp [truthyS] at h2; exact ⟨t, rfl, h2⟩
  have hmk : (⟨s, tgt, mkRunCondition ec.sourceHandle⟩ : GraphEdge) = mkGraphEdge ec := by
    simp [mkGraphEdge, hsrc, htg]
  cases hem : List.lookup s em with
  | some v =>
    have hem1 : (if (List.lookup s em).isSome then em else dset em s []) = em := by
      simp [hem]
    simp only [parseEdgeStep, hsrc, htg, if_neg hne, if_neg htne, hem1]
    rw [lookup_dset_self, hmk]
    simp [dgetD, hem]
  | none =>
    have hem1 : (if (List.lookup s em).isSome then em else dset em s []) =
        dset em s [] := by simp [hem]
    simp only [parseEdgeStep, hsrc, htg, if_neg hne, if_neg htne, hem1]
    rw [lookup_dset_self, hmk]
    simp [dgetD, lookup_dset_self]

theorem parseEdgeStep_lookup_notgt (em : EdgeMap) (tids : List String) (ec : EdgeConfig)
    (s : String) (h1 : srcIs s ec = true) (h2 : truthyS ec.target = false) :
    List.lookup s (parseEdgeStep (em, tids) ec).1 =
      some ((List.lookup s em).getD []) := by
  obtain ⟨hsrc, hne⟩ := srcIs_true_elim h1
  have hem1goal : List.lookup s
      (if (List.lookup s em).isSome then em else dset em s []) =
      some ((List.lookup s em).getD []) := by
    cases hem : List.lookup s em with
    | some v => simp [hem]
    | none => simp [hem, lookup_dset_self]
  cases h : ec.target with
  | none => simp only [parseEdgeStep, hsrc, h, if_neg hne]; exact hem1goal
  | some t =>
    have ht : t = "" := by rw [h] at h2; simp [truthyS] at h2; exact h2
    subst ht
    simp only [parseEdgeStep, hsrc, h, if_neg hne, if_pos rfl]
    exact hem1goal

theorem parseEdgeStep_lookup_other (em : EdgeMap) (tids : List String) (ec : EdgeConfig)
    (s : String) (h1 : srcIs s ec = false) :
    List.lookup s (parseEdgeStep (em, tids) ec).1 = List.lookup s em := by
  cases hsrc : ec.source with
  | none => simp [parseEdgeStep, hsrc]
  | some src =>
    by_cases hse : src = ""
    · subst hse; simp [parseEdgeStep, hsrc]
    · have hss : src ≠ s := by
        intro hcontra
        subst hcontra
        simp [srcIs, hsrc, hse] at h1
      have hem1 : List.lookup s
          (if (List.lookup src em).isSome then em else dset em src []) =
          List.lookup s em := by
        cases hem : List.lookup src em with
        | some v => simp [hem]
        | none => simp [hem]; exact lookup_dset_ne em src s [] (fun hh => hss hh.symm)
      cases htg : ec.target with
      | none => simp only [parseEdgeStep, hsrc, htg, if_neg hse]; exact hem1
      | some t =>
        by_cases hte : t = ""
        · subst hte
          simp only [parseEdgeStep, hsrc, htg, if_neg hse, if_pos rfl]
          exact hem1
        · simp only [parseEdgeStep, hsrc, htg, if_neg hse, if_neg hte]
          rw [lookup_dset_ne _ _ _ _ (fun hh => hss hh.symm)]
          exact hem1

theorem parseEdgeLoop_lookup (s : String) :
    ∀ (ecs : List EdgeConfig) (em : EdgeMap) (tids : List String),
      List.lookup s (parseEdgeLoop (em, tids) ecs).1 =
        match List.lookup s em with
        | some v => some (v ++ edgesFrom s ecs)
        | none => if ecs.any (srcIs s) then some (edgesFrom s ecs) else none := by
  intro ecs
  induction ecs with
  | nil =>
    intro em tids
    simp only [parseEdgeLoop, edgesFrom, List.filter_nil, List.map_nil, List.any_nil,
      Bool.false_eq_true, if_false]
    cases List.lookup s em <;> simp
  | cons ec rest ih =>
    intro em tids
    have hloop : parseEdgeLoop (em, tids) (ec :: rest) =
        parseEdgeLoop (parseEdgeStep (em, tids) ec) rest := rfl
    have hsplit : parseEdgeStep (em, tids) ec =
        ((parseEdgeStep (em, tids) ec).1, (parseEdgeStep (em, tids) ec).2) := rfl
    rw [hloop, hsplit, ih]
    by_cases h1 : srcIs s ec = true
    · by_cases h2 : truthyS ec.target = true
      · rw [parseEdgeStep_lookup_full em tids ec s h1 h2]
        have hfe : edgesFrom s (ec :: rest) = mkGraphEdge ec :: edgesFrom s rest := by
          simp [edgesFrom, List.filter_cons, h1, h2]
        have hany : (ec :: rest).any (srcIs s) = true := by simp [List.any_cons, h1]
        cases hem : List.lookup s em with
        | some v => simp [hem, hfe]
        | none => simp [hem, hfe, hany]
      · rw [Bool.not_eq_true] at h2
        rw [parseEdgeStep_lookup_notgt em tids ec s h1 h2]
        have hfe : edgesFrom s (ec :: rest) = edgesFrom s rest := by
          simp [edgesFrom, List.filter_cons, h1, h2]
        have hany : (ec :: rest).any (srcIs s) = true := by simp [List.any_cons, h1]
        cases hem : List.lookup s em with
        | some v => simp [hem, hfe]
        | none => simp [hem, hfe, hany]
    · rw [Bool.not_eq_true] at h1
      rw [parseEdgeStep_lookup_other em tids ec s h1]
      have hfe : edgesFrom s (ec :: rest) = edgesFrom s rest := by
        simp [edgesFrom, List.filter_cons, h1]
      have hany : (ec :: rest).any (srcIs s) = rest.any (srcIs s) := by
        simp [List.any_cons, h1]
      rw [hfe, hany]

theorem parseEdgeStep_targets (em : EdgeMap) (tids : List String) (ec : EdgeConfig)
    (hinv : ∀ s l, List.lookup s em = some l → ∀ e ∈ l, e.target_node_id ∈ tids) :
    ∀ s l, List.lookup s (parseEdgeStep (em, tids) ec).1 = some l →
      ∀ e ∈ l, e.target_node_id ∈ (parseEdgeStep (em, tids) ec).2 := by
  have hem1 : ∀ src, (∀ s l, List.lookup s
      (if (List.lookup src em).isSome then em else dset em src []) = some l →
      ∀ e ∈ l, e.target_node_id ∈ tids) := by
    intro src s l hl e he
    by_cases hsome : (List.lookup src em).isSome
    · rw [if_pos hsome] at hl
      exact hinv s l hl e he
    · rw [if_neg hsome] at hl
      by_cases hs : s = src
      · subst hs
        rw [Option.not_isSome_iff_eq_none] at hsome
        rw [lookup_dset_self] at hl
        simp only [Option.some.injEq] at hl
        subst hl
        simp at he
      · rw [lookup_dset_ne em src s [] hs] at hl
        exact hinv s l hl e he
  cases hsrc : ec.source with
  | none => simp only [parseEdgeStep, hsrc]; exact hinv
  | some src =>
    by_cases hse : src = ""
    · subst hse; simp only [parseEdgeStep, hsrc, if_pos rfl]; exact hinv
    · cases htg : ec.target with
      | none =>
        simp only [parseEdgeStep, hsrc, htg, if_neg hse]
        exact hem1 src
      | some tgt =>
        by_cases hte : tgt = ""
        · subst hte
          simp only [parseEdgeStep, hsrc, htg, if_neg hse, if_pos rfl]
          exact hem1 src
        · simp only [parseEdgeStep, hsrc, htg, if_neg hse, if_neg hte]
          intro s l hl e he
          by_cases hs : s = src
          · subst hs
            rw [lookup_dset_self] at hl
            simp only [Option.some.injEq] at hl
            subst hl
            rcases List.mem_append.mp he with h1 | h1
            · unfold dgetD at h1
              cases hl1 : List.lookup s
                  (if (List.lookup s em).isSome then em else dset em s []) with
              | none => rw [hl1] at h1; simp at h1
              | some l0 =>
                rw [hl1] at h1; simp at h1
                exact List.mem_append_left _ (hem1 s s l0 hl1 e h1)
            · have : e = ⟨s, tgt, mkRunCondition ec.sourceHandle⟩ := by simpa using h1
              subst this
              simp
          · rw [lookup_dset_ne _ src s _ hs] at hl
            exact List.mem_append_left _ (hem1 src s l hl e he)

theorem parseEdgeLoop_targets :
    ∀ (ecs : List EdgeConfig) (em : EdgeMap) (tids : List String),
      (∀ s l, List.lookup s em = some l → ∀ e ∈ l, e.target_node_id ∈ tids) →
      ∀ s l, List.lookup s (parseEdgeLoop (em, tids) ecs).1 = some l →
        ∀ e ∈ l, e.target_node_id ∈ (parseEdgeLoop (em, tids) ecs).2 := by
  intro ecs
  induction ecs with
  | nil => intro em tids hinv; exact hinv
  | cons ec rest ih =>
    intro em tids hinv
    have hsplit : parseEdgeStep (em, tids) ec =
        ((parseEdgeStep (em, tids) ec).1, (parseEdgeStep (em, tids) ec).2) := rfl
    have hloop : parseEdgeLoop (em, tids) (ec :: rest) =
        parseEdgeLoop ((parseEdgeStep (em, tids) ec).1,
          (parseEdgeStep (em, tids) ec).2) rest := by
      conv_lhs => rw [show parseEdgeLoop (em, tids) (ec :: rest) =
        parseEdgeLoop (parseEdgeStep (em, tids) ec) rest from rfl, hsplit]
    rw [hloop]
    exact ih _ _ (parseEdgeStep_targets em tids ec hinv)

theorem edgeIn_parseEM_target (cfg : GraphConfig) (s t : String)
    (h : EdgeIn (parseEM cfg) s t) : t ∈ parseTargets cfg := by
  obtain ⟨e, he, ht⟩ := h
  unfold edgesOf dgetD at he
  cases hl : List.lookup s (parseEM cfg) with
  | none => rw [hl] at he; simp at he
  | some l =>
    rw [hl] at he; simp only [Option.getD_some] at he
    subst ht
    exact parseEdgeLoop_targets cfg.edges [] [] (by intro s l h; simp [List.lookup] at h)
      s l hl e he

theorem resolveRoot_mem_candidates (nodes : List NodeConfig) (tids : List String)
    (rid : Option String) (r : String) (h : resolveRoot nodes tids rid = some r) :
    r ∈ (rootNodeConfigs nodes tids).map idOf := by
  unfold resolveRoot at h
  split at h
  next a heq =>
    split at h
    next hc =>
      simp only [Option.some.injEq] at h
      subst h
      simpa using hc
    next hc => simp at h
  next => simp at h

theorem resolveRoot_not_target (nodes : List NodeConfig) (tids : List String)
    (rid : Option String) (r : String) (h : resolveRoot nodes tids rid = some r) :
    r ∉ tids := by
  have hmem := resolveRoot_mem_candidates nodes tids rid r h
  obtain ⟨nc, hnc, hid⟩ := List.mem_map.mp hmem
  have hfil := (List.mem_filter.mp hnc).2
  simp only [Bool.and_eq_true, Bool.not_eq_true'] at hfil
  subst hid
  simpa using hfil.2

/-! ### Persistence and sufficiency of the parallel-detection recursion -/

/-- All recorded scope ids are below the fresh-id counter. -/
def CtrFresh (st : PState) : Prop := ∀ p ∈ st.pm, p.1 < st.ctr

theorem applyFanOutF_persist (em : EdgeMap) (f : Nat) (st : PState) (node : String)
    (st1 : PState) (h : applyFanOutF em f st node = some st1) (hc : CtrFresh st) :
    CtrFresh st1 ∧ st.ctr ≤ st1.ctr ∧
      ∀ k v, List.lookup k st.pm = some v → List.lookup k st1.pm = some v := by
  unfold applyFanOutF at h
  by_cases hlen : (edgesOf em node).length > 1
  · rw [if_pos hlen] at h
    by_cases hp : condTargets (edgesOf em node) = []
    · rw [if_pos hp] at h
      simp only [Option.some.injEq] at h; subst h
      exact ⟨hc, le_refl _, fun _ _ hv => hv⟩
    · rw [if_neg hp] at h
      cases hf : fetchAllNodeIdsInParallels em f (condTargets (edgesOf em node)) with
      | none => rw [hf] at h; simp at h
      | some ib =>
        rw [hf] at h
        simp only [Option.some.injEq] at h
        subst h
        refine ⟨?_, by simp, ?_⟩
        · intro p hp2
          simp only at hp2
          rcases mem_dset st.pm st.ctr _ p hp2 with h2 | h2
          · have := hc p h2; simp only; omega
          · simp only [h2]; omega
        · intro k v hv
          have hk : k < st.ctr := hc (k, v) (lookup_mem _ _ _ hv)
          simp only
          rw [lookup_dset_ne st.pm st.ctr k _ (by omega)]
          exact hv
  · rw [if_neg hlen] at h
    simp only [Option.some.injEq] at h; subst h
    exact ⟨hc, le_refl _, fun _ _ hv => hv⟩

theorem goParallels_persist (recP : PState → String → Option PState)
    (hrec : ∀ st node st', recP st node = some st' → CtrFresh st →
      CtrFresh st' ∧ st.ctr ≤ st'.ctr ∧
        ∀ k v, List.lookup k st.pm = some v → List.lookup k st'.pm = some v) :
    ∀ (l : List GraphEdge) (st st' : PState),
      goParallels recP st l = some st' → CtrFresh st →
      CtrFresh st' ∧ st.ctr ≤ st'.ctr ∧
        ∀ k v, List.lookup k st.pm = some v → List.lookup k st'.pm = some v := by
  intro l
  induction l with
  | nil =>
    intro st st' h hc
    simp only [goParallels, Option.some.injEq] at h
    subst h
    exact ⟨hc, le_refl _, fun _ _ hv => hv⟩
  | cons e rest ih =>
    intro st st' h hc
    simp only [goParallels] at h
    cases hr : recP st e.target_node_id with
    | none => rw [hr] at h; simp at h
    | some st1 =>
      rw [hr] at h
      obtain ⟨hc1, hle1, hp1⟩ := hrec st _ st1 hr hc
      obtain ⟨hc2, hle2, hp2⟩ := ih st1 st' h hc1
      exact ⟨hc2, le_trans hle1 hle2, fun k v hv => hp2 k v (hp1 k v hv)⟩

theorem addParallelsF_persist (em : EdgeMap) :
    ∀ (f : Nat) (st : PState) (node : String) (st' : PState),
      recursivelyAddParallels em f st node = some st' → CtrFresh st →
      CtrFresh st' ∧ st.ctr ≤ st'.ctr ∧
        ∀ k v, List.lookup k st.pm = some v → List.lookup k st'.pm = some v := by
  intro f
  induction f with
  | zero => intro st node st' h hc; simp [recursivelyAddParallels] at h
  | succ f ih =>
    intro st node st' h hc
    simp only [recursivelyAddParallels] at h
    cases ha : applyFanOutF em f st node with
    | none => rw [ha] at h; simp at h
    | some st1 =>
      rw [ha] at h
      obtain ⟨hc1, hle1, hp1⟩ := applyFanOutF_persist em f st node st1 ha hc
      obtain ⟨hc2, hle2, hp2⟩ :=
        goParallels_persist _ (fun s n s' hh hcc => ih s n s' hh hcc) _ st1 st' h hc1
      exact ⟨hc2, le_trans hle1 hle2, fun k v hv => hp2 k v (hp1 k v hv)⟩

theorem missingT_nil (em : EdgeMap) : missingT em [] = (emTargets em).length := by
  simp [missingT]

theorem routesLoopF_suff (em : EdgeMap) (f : Nat) (h : (emTargets em).length < f) :
    ∀ (pnids : List String) (acc : List (String × List String)),
      ∃ r, routesLoopF em f acc pnids = some r := by
  intro pnids
  induction pnids with
  | nil => intro acc; exact ⟨acc, rfl⟩
  | cons p rest ih =>
    intro acc
    obtain ⟨lst, hw⟩ := walkF_suff em (fun _ => false) f [] p (by rw [missingT_nil]; exact h)
    simp only [routesLoopF, recursivelyFetchRoutes]
    rw [hw]
    exact ih _

theorem inBranchLoopF_suff (em : EdgeMap) (f : Nat) (h : (emTargets em).length < f)
    (bm : List (String × String)) :
    ∀ (routes acc : List (String × List String)),
      ∃ r, inBranchLoopF em f bm acc routes = some r := by
  intro routes
  induction routes with
  | nil => intro acc; exact ⟨acc, rfl⟩
  | cons p rest ih =>
    intro acc
    simp only [inBranchLoopF]
    cases hb : List.lookup p.1 bm with
    | none => exact ih _
    | some mergeId =>
      have hm : missingT em [p.1] < f := by
        have h1 : missingT em [p.1] ≤ missingT em [] :=
          missingT_le_of_subset em [] [p.1] (by simp)
        rw [missingT_nil] at h1
        omega
      obtain ⟨lst, hw⟩ := walkF_suff em (fun t => t == mergeId) f [p.1] p.1 hm
      simp only [recursivelyAddParallelNodeIds]
      rw [hw]
      exact ih _

theorem fetchAll_suff (em : EdgeMap) (f : Nat) (h : (emTargets em).length < f)
    (pnids : List String) : ∃ r, fetchAllNodeIdsInParallels em f pnids = some r := by
  obtain ⟨routes, hr⟩ := routesLoopF_suff em f h pnids []
  unfold fetchAllNodeIdsInParallels
  rw [hr]
  exact inBranchLoopF_suff em f h _ routes []

theorem applyFanOutF_suff (em : EdgeMap) (f : Nat) (st : PState) (node : String)
    (h : (emTargets em).length < f) : ∃ st1, applyFanOutF em f st node = some st1 := by
  unfold applyFanOutF
  by_cases hlen : (edgesOf em node).length > 1
  · rw [if_pos hlen]
    by_cases hp : condTargets (edgesOf em node) = []
    · rw [if_pos hp]; exact ⟨st, rfl⟩
    · rw [if_neg hp]
      obtain ⟨r, hr⟩ := fetchAll_suff em f h (condTargets (edgesOf em node))
      rw [hr]
      exact ⟨_, rfl⟩
  · rw [if_neg hlen]; exact ⟨st, rfl⟩

theorem goParallels_suff (recP : PState → String → Option PState) :
    ∀ (l : List GraphEdge),
      (∀ (st : PState) (e : GraphEdge), e ∈ l → ∃ st', recP st e.target_node_id = some st') →
      ∀ st, ∃ st', goParallels recP st l = some st' := by
  intro l
  induction l with
  | nil => intro _ st; exact ⟨st, rfl⟩
  | cons e rest ih =>
    intro hrec st
    obtain ⟨st1, hr⟩ := hrec st e (List.mem_cons_self _ _)
    simp only [goParallels]
    rw [hr]
    exact ih (fun st2 e2 he2 => hrec st2 e2 (List.mem_cons_of_mem _ he2)) st1

theorem addParallelsF_suff (em : EdgeMap) (root : String) (rank : String → Nat) (N : Nat)
    (hrank : ∀ s t, ReachF em root s → EdgeIn em s t → rank s < rank t)
    (hbound : ∀ n, ReachF em root n → rank n ≤ N) :
    ∀ (f : Nat) (st : PState) (node : String), ReachF em root node →
      N + (emTargets em).length + 2 ≤ f + rank node →
      ∃ st', recursivelyAddParallels em f st node = some st' := by
  intro f
  induction f with
  | zero =>
    intro st node hreach harith
    have := hbound node hreach
    omega
  | succ f ih =>
    intro st node hreach harith
    have hT : (emTargets em).length < f := by
      have := hbound node hreach; omega
    obtain ⟨st1, ha⟩ := applyFanOutF_suff em f st node hT
    simp only [recursivelyAddParallels]
    rw [ha]
    apply goParallels_suff _ (edgesOf em node) ?_ st1
    intro st2 e he
    have hreach2 : ReachF em root e.target_node_id :=
      ReachF.step hreach (edgeIn_of_edgesOf he)
    have hrk : rank node < rank e.target_node_id :=
      hrank node _ hreach (edgeIn_of_edgesOf he)
    exact ih st2 e.target_node_id hreach2 (by omega)

theorem le_foldr_max (l : List Nat) (x : Nat) (hx : x ∈ l) : x ≤ l.foldr Nat.max 0 := by
  induction l with
  | nil => simp at hx
  | cons a rest ih =>
    simp only [List.foldr_cons]
    rcases List.mem_cons.mp hx with h | h
    · subst h; exact Nat.le_max_left _ _
    · exact le_trans (ih h) (Nat.le_max_right _ _)

theorem edgeIn_target_mem (em : EdgeMap) (s t : String) (h : EdgeIn em s t) :
    t ∈ emTargets em := by
  obtain ⟨e, he, ht⟩ := h
  rw [← ht]
  exact mem_emTargets_of_edgesOf em s e he

theorem reach_mem_targets (em : EdgeMap) (r n : String) (h : ReachF em r n) :
    n = r ∨ n ∈ emTargets em := by
  induction h with
  | refl => exact Or.inl rfl
  | step _ he _ => exact Or.inr (edgeIn_target_mem em _ _ he)

theorem graphInit_ok_intro (cfg : GraphConfig) (vp : VariablePool) (rid : Option String)
    (f : Nat) (root : String) (nids : List String) (st : PState)
    (hn : ¬cfg.nodes = [])
    (hr : resolveRoot cfg.nodes (parseTargets cfg) rid = some root)
    (hw : recursivelyAddNodeIds (parseEM cfg) f [root] root = some nids)
    (hp : recursivelyAddParallels (parseEM cfg) f ⟨[], [], 0⟩ root = some st) :
    graphInit cfg vp rid f =
      some (Except.ok ⟨root, nids, parseEM cfg, st.pm, st.npm, ⟨[], vp, []⟩⟩) := by
  simp only [graphInit, if_neg hn, hr, hw, hp]

theorem graphInit_ok_elim (cfg : GraphConfig) (vp : VariablePool) (rid : Option String)
    (f : Nat) (g : Graph) (h : graphInit cfg vp rid f = some (Except.ok g)) :
    ∃ root nids st,
      resolveRoot cfg.nodes (parseTargets cfg) rid = some root ∧
      recursivelyAddNodeIds (parseEM cfg) f [root] root = some nids ∧
      recursivelyAddParallels (parseEM cfg) f ⟨[], [], 0⟩ root = some st ∧
      g = ⟨root, nids, parseEM cfg, st.pm, st.npm, ⟨[], vp, []⟩⟩ := by
  unfold graphInit at h
  split at h
  · simp at h
  · split at h
    · simp at h
    · rename_i root hr
      split at h
      · simp at h
      · rename_i nids hw
        split at h
        · simp at h
        · rename_i st hp
          simp only [Option.some.injEq, Except.ok.injEq] at h
          exact ⟨root, nids, st, hr, hw, hp, h.symm⟩

/-- C6: on every config on which build succeeds, the resulting `node_ids`
has no duplicates and its members are exactly the nodes forward-reachable
from the resolved root over the constructed adjacency (the order being, by
construction, first discovery of the depth-first walk
`_recursively_add_node_ids` in stored edge order). -/
theorem c6_node_ids_closure (cfg : GraphConfig) (vp : VariablePool) (rid : Option String)
    (f : Nat) (g : Graph) (h : graphInit cfg vp rid f = some (Except.ok g)) :
    g.node_ids.Nodup ∧
      ∀ n, n ∈ g.node_ids ↔ ReachF g.edge_mapping g.root_node_id n := by
  obtain ⟨root, nids, st, _, hw, _, hg⟩ := graphInit_ok_elim cfg vp rid f g h
  subst hg
  simp only
  unfold recursivelyAddNodeIds at hw
  constructor
  · exact walkF_nodup (parseEM cfg) _ f [root] root nids hw (by simp)
  · intro n
    constructor
    · intro hn
      rcases walkF_sound (parseEM cfg) _ f [root] root nids hw n hn with h1 | h1
      · have : n = root := by simpa using h1
        subst this; exact ReachF.refl
      · exact h1
    · intro hreach
      have hroot_mem : root ∈ nids := walkF_sub (parseEM cfg) _ f [root] root nids hw (by simp)
      obtain ⟨hcl1, hcl2⟩ := walkF_complete (parseEM cfg) _ f [root] root nids hw
      have hclosed : ∀ x ∈ nids, ∀ e ∈ edgesOf (parseEM cfg) x,
          e.target_node_id ∈ nids := by
        intro x hx e he
        rcases hcl2 x hx with h1 | h1
        · have : x = root := by simpa using h1
          subst this
          rcases hcl1 e he with h2 | h2
          · simp at h2
          · exact h2
        · rcases h1 e he with h2 | h2
          · simp at h2
          · exact h2
      induction hreach with
      | refl => exact hroot_mem
      | step _ he ih2 =>
        obtain ⟨e, he2, ht⟩ := he
        rw [← ht]
        exact hclosed _ ih2 e he2

/-- C3: on every config whose reachable part of the parsed adjacency is
acyclic apart from edges looping back into the resolved root (the
tolerated loop-back pattern, witnessed by a rank increasing along every
reachable edge not targeting the root), build terminates: some fuel makes
`Graph.init` return, i.e. every construction-time traversal returns.  In
particular a config with a back-edge into the root makes the root fail
the in-degree-zero candidate check, so build raises before any traversal
runs, and the remaining traversals only ever see an acyclic region. -/
theorem c3_build_terminates (cfg : GraphConfig) (vp : VariablePool) (rid : Option String)
    (hacyc : ∀ r, resolveRoot cfg.nodes (parseTargets cfg) rid = some r →
      ∃ rank : String → Nat, ∀ s t, ReachF (parseEM cfg) r s →
        EdgeIn (parseEM cfg) s t → t ≠ r → rank s < rank t) :
    ∃ f, (graphInit cfg vp rid f).isSome := by
  by_cases hn : cfg.nodes = []
  · exact ⟨1, by simp [graphInit, hn]⟩
  · cases hr : resolveRoot cfg.nodes (parseTargets cfg) rid with
    | none => exact ⟨1, by simp [graphInit, hn, hr]⟩
    | some r =>
      obtain ⟨rank, hrank0⟩ := hacyc r hr
      have hnt : r ∉ parseTargets cfg := resolveRoot_not_target _ _ _ _ hr
      have hrank : ∀ s t, ReachF (parseEM cfg) r s → EdgeIn (parseEM cfg) s t →
          rank s < rank t := by
        intro s t hs he
        by_cases hteq : t = r
        · subst hteq
          exact absurd (edgeIn_parseEM_target cfg s t he) hnt
        · exact hrank0 s t hs he hteq
      set N := ((r :: emTargets (parseEM cfg)).map rank).foldr Nat.max 0 with hN
      set T := (emTargets (parseEM cfg)).length with hT0
      have hbound : ∀ n, ReachF (parseEM cfg) r n → rank n ≤ N := by
        intro n hreach
        apply le_foldr_max
        apply List.mem_map_of_mem
        rcases reach_mem_targets (parseEM cfg) r n hreach with h | h
        · subst h; exact List.mem_cons_self _ _
        · exact List.mem_cons_of_mem _ h
      have hTm : missingT (parseEM cfg) [r] < N + T + 2 := by
        have h1 : missingT (parseEM cfg) [r] ≤ missingT (parseEM cfg) [] :=
          missingT_le_of_subset (parseEM cfg) [] [r] (by simp)
        rw [missingT_nil] at h1
        omega
      obtain ⟨nids, hw⟩ := walkF_suff (parseEM cfg) (fun _ => false) (N + T + 2) [r] r hTm
      obtain ⟨st, hp⟩ := addParallelsF_suff (parseEM cfg) r rank N hrank hbound
        (N + T + 2) ⟨[], [], 0⟩ r ReachF.refl (by omega)
      have hok := graphInit_ok_intro cfg vp rid (N + T + 2) r nids st hn hr hw hp
      exact ⟨N + T + 2, by rw [hok]; rfl⟩

/-- C2 (amended): at every fan-out handled during parallel-region
detection (a node with more than one out-edge and a nonempty list of
conditioned branch targets), the freshly created scope survives into the
final `parallel_mapping`, and its parent is `parentChoice`: the scope of
the *first* conditioned branch target whenever every conditioned branch
target has an entry in `node_parallel_mapping` — regardless of whether
those entries refer to the same scope — and no parent otherwise. -/
theorem c2_parent_rule (em : EdgeMap) (f : Nat) (st : PState) (node : String)
    (st' : PState) (hc : CtrFresh st)
    (hlen : (edgesOf em node).length > 1)
    (hpn : condTargets (edgesOf em node) ≠ [])
    (h : recursivelyAddParallels em (f + 1) st node = some st') :
    List.lookup st.ctr st'.pm =
      some ⟨st.ctr, parentChoice st.npm (condTargets (edgesOf em node))⟩ := by
  simp only [recursivelyAddParallels] at h
  cases ha : applyFanOutF em f st node with
  | none => rw [ha] at h; simp at h
  | some st1 =>
    rw [ha] at h
    have ha0 := ha
    obtain ⟨hcf1, _, _⟩ := applyFanOutF_persist em f st node st1 ha0 hc
    unfold applyFanOutF at ha
    rw [if_pos hlen, if_neg hpn] at ha
    cases hfa : fetchAllNodeIdsInParallels em f (condTargets (edgesOf em node)) with
    | none => rw [hfa] at ha; simp at ha
    | some ib =>
      rw [hfa] at ha
      simp only [Option.some.injEq] at ha
      have hlook1 : List.lookup st.ctr st1.pm =
          some ⟨st.ctr, parentChoice st.npm (condTargets (edgesOf em node))⟩ := by
        rw [← ha]
        exact lookup_dset_self st.pm st.ctr _
      obtain ⟨_, _, hpres⟩ :=
        goParallels_persist _ (fun s n s' hh hcc => addParallelsF_persist em f s n s' hh hcc)
          (edgesOf em node) st1 st' h hcf1
      exact hpres st.ctr _ hlook1

/-- C7: on every graph whose run state has an empty routes map,
`next_node_ids` returns exactly one frontier entry: the root node id with
no parallel scope attached. -/
theorem c7_empty_routes (g : Graph) (cc : RunCondition → String → String → Graph → Bool)
    (h : g.run_state.routes = []) :
    nextNodeIds g cc = Except.ok [⟨g.root_node_id, none⟩] := by
  unfold nextNodeIds
  rw [if_pos h]

/-- The graph `g` with its recorded routes replaced by `r`. -/
def setRoutes (g : Graph) (r : List (String × List GraphStateRoute)) : Graph :=
  { g with run_state := { g.run_state with routes := r } }

theorem routeFinalEdges_congr (em : EdgeMap)
    (routes1 routes2 : List (String × List GraphStateRoute))
    (hkeys : ∀ k, (List.lookup k routes1).isSome = (List.lookup k routes2).isSome) :
    ∀ routeList, routeFinalEdges em routes1 routeList = routeFinalEdges em routes2 routeList := by
  have hnone : ∀ k, (List.lookup k routes1).isNone = (List.lookup k routes2).isNone := by
    intro k
    have := hkeys k
    cases h1 : List.lookup k routes1 <;> cases h2 : List.lookup k routes2 <;>
      rw [h1, h2] at this <;> simp_all
  intro routeList
  unfold routeFinalEdges
  apply List.foldl_ext
  intro acc route _
  cases List.lookup route.node_id em with
  | none => rfl
  | some ges =>
    by_cases hg : ges = []
    · simp [hg]
    · simp only [if_neg hg]
      congr 1
      apply List.filter_congr
      intro e _
      exact hnone e.target_node_id

theorem buildNextFrom_congr (g1 g2 : Graph) (cc : RunCondition → String → String → Graph → Bool)
    (hnpm : g1.node_parallel_mapping = g2.node_parallel_mapping)
    (hpm : g1.parallel_mapping = g2.parallel_mapping)
    (hcc : ∀ rcond s t, cc rcond s t g1 = cc rcond s t g2) :
    ∀ l, buildNextFrom g1 cc l = buildNextFrom g2 cc l := by
  intro l
  induction l with
  | nil => rfl
  | cons e rest ih =>
    unfold buildNextFrom
    simp only [hnpm, hpm, ih, hcc]

/-- C10: `next_node_ids` on a non-empty routes map with no entry under the
root key raises `KeyError` (the unguarded subscript of line 222); and it
reads only the key set of the routes map plus the route list stored under
the root key: replacing every other route list, while keeping the key set
and the root entry, yields the same result — provided the external
condition predicate cannot tell the two graphs apart. -/
theorem c10_routes_key_access :
    (∀ (g : Graph) (cc : RunCondition → String → String → Graph → Bool),
      g.run_state.routes ≠ [] →
      List.lookup g.root_node_id g.run_state.routes = none →
      nextNodeIds g cc = Except.error "KeyError") ∧
    (∀ (g : Graph) (r2 : List (String × List GraphStateRoute))
      (cc : RunCondition → String → String → Graph → Bool),
      (∀ k, (List.lookup k g.run_state.routes).isSome = (List.lookup k r2).isSome) →
      List.lookup g.root_node_id g.run_state.routes = List.lookup g.root_node_id r2 →
      (∀ rcond s t, cc rcond s t g = cc rcond s t (setRoutes g r2)) →
      nextNodeIds g cc = nextNodeIds (setRoutes g r2) cc) := by
  constructor
  · intro g cc hne hnone
    unfold nextNodeIds
    rw [if_neg hne, hnone]
  · intro g r2 cc hkeys hroot hcc
    have hempiff : g.run_state.routes = [] ↔ r2 = [] := by
      constructor
      · intro he
        cases hr2 : r2 with
        | nil => rfl
        | cons p rest =>
          obtain ⟨k, v⟩ := p
          have h1 := hkeys k
          rw [he, hr2] at h1
          simp [List.lookup] at h1
      · intro he
        cases hr1 : g.run_state.routes with
        | nil => rfl
        | cons p rest =>
          obtain ⟨k, v⟩ := p
          have h1 := hkeys k
          rw [he, hr1] at h1
          simp [List.lookup] at h1
    unfold nextNodeIds
    by_cases hemp : g.run_state.routes = []
    · have hemp2 : (setRoutes g r2).run_state.routes = [] := hempiff.mp hemp
      rw [if_pos hemp, if_pos hemp2]
      rfl
    · have hemp2 : ¬(setRoutes g r2).run_state.routes = [] := by
        show ¬r2 = []
        intro hcon
        exact hemp (hempiff.mpr hcon)
      rw [if_neg hemp, if_neg hemp2]
      have hroot2 : List.lookup (setRoutes g r2).root_node_id (setRoutes g r2).run_state.routes =
          List.lookup g.root_node_id g.run_state.routes := by
        rw [hroot]; rfl
      rw [hroot2]
      cases hl : List.lookup g.root_node_id g.run_state.routes with
      | none => rfl
      | some routeList =>
        show buildNextFrom g cc
            (routeFinalEdges g.edge_mapping g.run_state.routes routeList) =
          buildNextFrom (setRoutes g r2) cc
            (routeFinalEdges (setRoutes g r2).edge_mapping
              (setRoutes g r2).run_state.routes routeList)
        have hfe : routeFinalEdges g.edge_mapping g.run_state.routes routeList =
            routeFinalEdges (setRoutes g r2).edge_mapping (setRoutes g r2).run_state.routes
              routeList :=
          routeFinalEdges_congr g.edge_mapping g.run_state.routes r2 hkeys routeList
        rw [← hfe]
        exact buildNextFrom_congr g (setRoutes g r2) cc rfl rfl hcc _

theorem addExtraEdge_fields (g : Graph) (s t : String) (rc : Option RunCondition) :
    (addExtraEdge g s t rc).root_node_id = g.root_node_id ∧
    (addExtraEdge g s t rc).node_ids = g.node_ids ∧
    (addExtraEdge g s t rc).parallel_mapping = g.parallel_mapping ∧
    (addExtraEdge g s t rc).node_parallel_mapping = g.node_parallel_mapping ∧
    (addExtraEdge g s t rc).run_state = g.run_state := by
  unfold addExtraEdge
  by_cases h1 : s ∈ g.node_ids ∧ t ∈ g.node_ids
  · rw [if_pos h1]
    by_cases h2 : t ∈ (dgetD (if (List.lookup s g.edge_mapping).isSome then g.edge_mapping
        else dset g.edge_mapping s []) s []).map GraphEdge.target_node_id
    · rw [if_pos h2]
      exact ⟨rfl, rfl, rfl, rfl, rfl⟩
    · rw [if_neg h2]
      exact ⟨rfl, rfl, rfl, rfl, rfl⟩
  · rw [if_neg h1]
    exact ⟨rfl, rfl, rfl, rfl, rfl⟩

/-- C8: `add_extra_edge` never raises (it is a total function of the
graph) and (i) is the identity when either id is absent from `node_ids`,
(ii) is the identity when an edge from source to target already exists,
whatever the conditions involved, and (iii) otherwise appends exactly one
new edge under the source key and changes nothing else: no other
adjacency key and no other field of the graph is touched. -/
theorem c8_add_extra_edge (g : Graph) (s t : String) (rc : Option RunCondition) :
    (¬(s ∈ g.node_ids ∧ t ∈ g.node_ids) → addExtraEdge g s t rc = g) ∧
    (s ∈ g.node_ids → t ∈ g.node_ids →
      t ∈ (dgetD g.edge_mapping s []).map GraphEdge.target_node_id →
      addExtraEdge g s t rc = g) ∧
    (s ∈ g.node_ids → t ∈ g.node_ids →
      t ∉ (dgetD g.edge_mapping s []).map GraphEdge.target_node_id →
      List.lookup s (addExtraEdge g s t rc).edge_mapping =
        some (dgetD g.edge_mapping s [] ++ [⟨s, t, rc⟩]) ∧
      (∀ k, k ≠ s → List.lookup k (addExtraEdge g s t rc).edge_mapping =
        List.lookup k g.edge_mapping) ∧
      (addExtraEdge g s t rc).root_node_id = g.root_node_id ∧
      (addExtraEdge g s t rc).node_ids = g.node_ids ∧
      (addExtraEdge g s t rc).parallel_mapping = g.parallel_mapping ∧
      (addExtraEdge g s t rc).node_parallel_mapping = g.node_parallel_mapping ∧
      (addExtraEdge g s t rc).run_state = g.run_state) := by
  refine ⟨?_, ?_, ?_⟩
  · intro h
    unfold addExtraEdge
    rw [if_neg h]
  · intro hs ht hdup
    have hsome : (List.lookup s g.edge_mapping).isSome := by
      unfold dgetD at hdup
      cases hl : List.lookup s g.edge_mapping with
      | none => rw [hl] at hdup; simp at hdup
      | some v => rfl
    unfold addExtraEdge
    rw [if_pos ⟨hs, ht⟩, if_pos hsome, if_pos hdup]
  · intro hs ht hdup
    have hgetD : dgetD (if (List.lookup s g.edge_mapping).isSome then g.edge_mapping
        else dset g.edge_mapping s []) s [] = dgetD g.edge_mapping s [] := by
      cases hl : List.lookup s g.edge_mapping with
      | none => simp [hl, dgetD, lookup_dset_self]
      | some v => simp [hl]
    have hem : (addExtraEdge g s t rc).edge_mapping =
        dset (if (List.lookup s g.edge_mapping).isSome then g.edge_mapping
          else dset g.edge_mapping s []) s
          (dgetD g.edge_mapping s [] ++ [⟨s, t, rc⟩]) := by
      unfold addExtraEdge
      rw [if_pos ⟨hs, ht⟩]
      simp only [hgetD, if_neg hdup]
    obtain ⟨h1, h2, h3, h4, h5⟩ := addExtraEdge_fields g s t rc
    refine ⟨?_, ?_, h1, h2, h3, h4, h5⟩
    · rw [hem]
      exact lookup_dset_self _ _ _
    · intro k hk
      rw [hem, lookup_dset_ne _ s k _ hk]
      cases hl : List.lookup s g.edge_mapping with
      | none => simp [hl]; exact lookup_dset_ne g.edge_mapping s k [] hk
      | some v => simp [hl]

theorem leafLoop_filter (g : Graph) : ∀ l, leafLoop g l = l.filter (fun n =>
    match List.lookup n g.edge_mapping with
    | none => true
    | some es => (es.length == 1) &&
        ((es.headD ⟨"", "", none⟩).target_node_id == g.root_node_id)) := by
  intro l
  induction l with
  | nil => rfl
  | cons n rest ih =>
    cases hl : List.lookup n g.edge_mapping with
    | none => simp [leafLoop, hl, List.filter_cons, ih]
    | some es =>
      by_cases hc : es.length = 1 ∧ (es.headD ⟨"", "", none⟩).target_node_id = g.root_node_id
      · have hpred : ((es.length == 1) &&
            ((es.headD ⟨"", "", none⟩).target_node_id == g.root_node_id)) = true := by
          rw [Bool.and_eq_true, beq_iff_eq, beq_iff_eq]
          exact hc
        simp [leafLoop, hl, List.filter_cons, if_pos hc, hpred, ih]
      · have hpred : ((es.length == 1) &&
            ((es.headD ⟨"", "", none⟩).target_node_id == g.root_node_id)) = false := by
          rw [Bool.eq_false_iff]
          intro hcon
          rw [Bool.and_eq_true, beq_iff_eq, beq_iff_eq] at hcon
          exact hc hcon
        simp [leafLoop, hl, List.filter_cons, if_neg hc, hpred, ih]

/-- C9 (amended): `get_leaf_node_ids` returns, in `node_ids` order,
exactly the nodes with *no entry at all* in `edge_mapping`, or whose
entry is a single edge targeting the root.  In particular every node
whose sole recorded edge targets the root is included; but a node whose
entry is the *empty* list (possible after a source-only malformed config
edge) has no outgoing edges and is nevertheless not returned. -/
theorem c9_leaf_nodes (g : Graph) :
    getLeafNodeIds g = g.node_ids.filter (fun n =>
      match List.lookup n g.edge_mapping with
      | none => true
      | some es => (es.length == 1) &&
          ((es.headD ⟨"", "", none⟩).target_node_id == g.root_node_id)) := by
  unfold getLeafNodeIds
  exact leafLoop_filter g g.node_ids

/-! ### Concrete configurations and the remaining claim theorems -/

/-- The unit variable pool used by the concrete examples. -/
def vpU : VariablePool := ⟨⟩

/-- A condition predicate that always passes. -/
def ccTrue : RunCondition → String → String → Graph → Bool := fun _ _ _ _ => true

/-- Nodes A(start), B, C with the single edge A→B and no edge into A. -/
def cfgStart : GraphConfig :=
  ⟨[⟨some "A", "start"⟩, ⟨some "B", ""⟩, ⟨some "C", ""⟩],
   [⟨some "A", some "B", none⟩]⟩

/-- C1 (code bug): on nodes A(start), B, C with the single edge A→B and no
explicit root id, line 152 binds the whole START node *config* instead of
its id to `root_node_id`, so the membership check of line 155 can never
succeed and build raises the `ValueError` of line 156 instead of
resolving A as the root. -/
theorem c1_start_root_raises :
    graphInit cfgStart vpU none 16 =
      some (Except.error "Root node id not found in the graph") := rfl

/-- The diamond A→B (selector "x"), A→C (selector "y"), B→D, C→D. -/
def cfgDiamond : GraphConfig :=
  ⟨[⟨some "A", "start"⟩, ⟨some "B", ""⟩, ⟨some "C", ""⟩, ⟨some "D", ""⟩],
   [⟨some "A", some "B", some "x"⟩, ⟨some "A", some "C", some "y"⟩,
    ⟨some "B", some "D", none⟩, ⟨some "C", some "D", none⟩]⟩

/-- C5: on the diamond with root A, build creates exactly one parallel
scope, `node_parallel_mapping` maps exactly B and C to it, and D — the
shared merge node — has no entry. -/
theorem c5_diamond_single_scope :
    (graphInit cfgDiamond vpU (some "A") 64).map
      (Except.map (fun g => (g.parallel_mapping, g.node_parallel_mapping))) =
      some (Except.ok ([(0, ⟨0, none⟩)], [("B", 0), ("C", 0)])) := rfl

/-- All edges conditioned: R→A, R→B, A→C, A→D, D→B, D→C. -/
def cfgTwoScopes : GraphConfig :=
  ⟨[⟨some "R", "start"⟩, ⟨some "A", ""⟩, ⟨some "B", ""⟩, ⟨some "C", ""⟩, ⟨some "D", ""⟩],
   [⟨some "R", some "A", some "h"⟩, ⟨some "R", some "B", some "h"⟩,
    ⟨some "A", some "C", some "h"⟩, ⟨some "A", some "D", some "h"⟩,
    ⟨some "D", some "B", some "h"⟩, ⟨some "D", some "C", some "h"⟩]⟩

/-- C2 (counterexample): building `cfgTwoScopes` from root R first creates
scope 0 (branch roots A, B) and scope 1 (branch roots C, D); when the
fan-out at D is then processed, its branch roots B and C are mapped to
the two *different* scopes 0 and 1, yet the scope created there (id 2)
receives parent 0 — the first branch root's scope — whereas the claim
requires a top-level scope whenever the branch roots' scopes differ. -/
theorem c2_counterexample :
    (graphInit cfgTwoScopes vpU (some "R") 64).map
      (Except.map (fun g => (g.parallel_mapping, g.node_parallel_mapping))) =
      some (Except.ok
        ([(0, ⟨0, none⟩), (1, ⟨1, none⟩), (2, ⟨2, some 0⟩)],
         [("A", 0), ("B", 2), ("C", 2), ("D", 1)])) := rfl

/-- A config whose only edge for source B lacks a target. -/
def cfgMalformed : GraphConfig :=
  ⟨[⟨some "A", "start"⟩], [⟨some "B", none, none⟩]⟩

/-- C4 (counterexample): the key creation at line 105 happens before the
target check at line 109, so a config whose only edge entry for source B
has no target leaves B present in the adjacency with an *empty* edge
list, where the claim requires B to be absent. -/
theorem c4_counterexample :
    (graphInit cfgMalformed vpU (some "A") 16).map
      (Except.map (fun g => (List.lookup "B" g.edge_mapping, g.node_ids))) =
      some (Except.ok (some [], ["A"])) := rfl

/-- C4 (amended): the parsed adjacency has an entry under `s` exactly
when some edge config carries the truthy source `s` — even one whose
target is missing or empty, in which case the entry can be the empty
list — and that entry holds the parsed edges of the configs with source
`s` and a truthy target, in order.  So adjacency keys are the sources of
at least one config *entry*, not of at least one complete edge, and
value lists can be empty; an entry missing only `source` is dropped with
no effect. -/
theorem c4_parse_characterization (ecs : List EdgeConfig) (s : String) :
    List.lookup s (parseEdgeLoop ([], []) ecs).1 =
      if ecs.any (srcIs s) then some (edgesFrom s ecs) else none := by
  rw [parseEdgeLoop_lookup s ecs [] []]
  rfl

/-- Nodes A(start), B with the edge A→B plus a target-less entry for B. -/
def cfgEmptyLeaf : GraphConfig :=
  ⟨[⟨some "A", "start"⟩, ⟨some "B", ""⟩],
   [⟨some "A", some "B", none⟩, ⟨some "B", none, none⟩]⟩

/-- C9 (counterexample): in the graph built from `cfgEmptyLeaf` the node
B is reachable and has no outgoing edges (its adjacency entry is the
empty list, created by the target-less config entry), yet
`get_leaf_node_ids` returns the empty list — the claim requires B to be
listed among the leaves. -/
theorem c9_counterexample :
    (graphInit cfgEmptyLeaf vpU (some "A") 16).map
      (Except.map (fun g => (g.node_ids, getLeafNodeIds g, List.lookup "B" g.edge_mapping))) =
      some (Except.ok (["A", "B"], [], some [])) := rfl

/-! ### Witnesses -/

/-- A two-way conditioned fan-out at A used to witness the parent rule. -/
def emFanOut : EdgeMap :=
  [("A", [⟨"A", "B", some ⟨"branch_identify", some "x"⟩⟩,
          ⟨"A", "C", some ⟨"branch_identify", some "y"⟩⟩])]

theorem c2_parent_rule_witness :
    List.lookup 0 (⟨[(0, (⟨0, none⟩ : GraphParallel))], [("B", 0), ("C", 0)], 1⟩ :
        PState).pm =
      some ⟨0, parentChoice [] (condTargets (edgesOf emFanOut "A"))⟩ :=
  c2_parent_rule emFanOut 8 ⟨[], [], 0⟩ "A" _
    (by intro p hp; simp at hp) (by decide) (by decide) rfl

theorem c3_build_terminates_witness :
    ∃ f, (graphInit ⟨[⟨some "A", "start"⟩], []⟩ vpU (some "A") f).isSome :=
  c3_build_terminates ⟨[⟨some "A", "start"⟩], []⟩ vpU (some "A") (by
    intro r _
    refine ⟨fun _ => 0, ?_⟩
    intro s t _ he _
    exfalso
    obtain ⟨e, he2, _⟩ := he
    simp [parseEM, parseEdgeLoop, edgesOf, dgetD, List.lookup] at he2)

theorem c6_node_ids_closure_witness :
    ∃ g, graphInit cfgDiamond vpU (some "A") 64 = some (Except.ok g) ∧
      g.node_ids.Nodup ∧
      (∀ n, n ∈ g.node_ids ↔ ReachF g.edge_mapping g.root_node_id n) :=
  ⟨_, rfl, c6_node_ids_closure cfgDiamond vpU (some "A") 64 _ rfl⟩

/-- A one-node graph with no recorded routes. -/
def gRoutesEmpty : Graph := ⟨"A", ["A"], [], [], [], ⟨[], vpU, []⟩⟩

theorem c7_empty_routes_witness :
    nextNodeIds gRoutesEmpty ccTrue = Except.ok [⟨"A", none⟩] :=
  c7_empty_routes gRoutesEmpty ccTrue rfl

/-- A two-node graph with no edges yet. -/
def gTwoNodes : Graph := ⟨"A", ["A", "B"], [], [], [], ⟨[], vpU, []⟩⟩

theorem c8_add_extra_edge_witness :
    addExtraEdge gTwoNodes "X" "B" none = gTwoNodes ∧
    List.lookup "A" (addExtraEdge gTwoNodes "A" "B" none).edge_mapping =
      some [⟨"A", "B", none⟩] ∧
    addExtraEdge (addExtraEdge gTwoNodes "A" "B" none) "A" "B"
      (some ⟨"branch_identify", some "z"⟩) = addExtraEdge gTwoNodes "A" "B" none := by
  refine ⟨?_, ?_, ?_⟩
  · exact (c8_add_extra_edge gTwoNodes "X" "B" none).1 (by decide)
  · exact ((c8_add_extra_edge gTwoNodes "A" "B" none).2.2 (by decide) (by decide)
      (by decide)).1
  · exact (c8_add_extra_edge (addExtraEdge gTwoNodes "A" "B" none) "A" "B"
      (some ⟨"branch_identify", some "z"⟩)).2.1 (by decide) (by decide) (by decide)

/-- A graph whose routes map holds one key X, which is not the root. -/
def gRoutesNoRoot : Graph := ⟨"A", ["A"], [], [], [], ⟨[("X", [])], vpU, []⟩⟩

theorem c10_routes_key_access_witness :
    nextNodeIds gRoutesNoRoot ccTrue = Except.error "KeyError" ∧
    nextNodeIds gRoutesNoRoot ccTrue =
      nextNodeIds (setRoutes gRoutesNoRoot [("X", [⟨"r1", "n1"⟩])]) ccTrue := by
  constructor
  · exact c10_routes_key_access.1 gRoutesNoRoot ccTrue (by decide) rfl
  · exact c10_routes_key_access.2 gRoutesNoRoot [("X", [⟨"r1", "n1"⟩])] ccTrue
      (by intro k; cases h : (k == "X") <;> simp [List.lookup, h]) rfl
      (fun _ _ _ => rfl)
